import Mathlib

/-!
Verification development for the naya-tidal-flat repository.

The repository consists of two Python scripts:
  * `scripts/fetch_observed_tide.py` — extracts 5-minute observed tide
    readings from a gauge page (regex scan) and merges them into a
    per-day JSON store plus a bounded `latest.json` window;
  * `scripts/fetch_tide_prediction.py` — extracts 24 hourly predicted
    tide levels per day from an HTML table and persists seven days of
    them wholesale.

The definitions below are a shallow embedding of those scripts: HTTP
and file I/O are abstracted away (the fetched page text, the parsed
table cells and the current store contents are parameters; the store
that would be written is the return value), while the pure
data-processing steps — the regex scan, the sentinel filter, the
dict-based deduplication, the sort, the latest-window slice, the table
walk and the driver loop — are translated operation by operation.
-/

namespace NayaTidal

/-- A tide record, the JSON object shape shared by both scripts:
`{'datetime': ..., 'tide': ..., 'type': ...}`. -/
structure TideRecord where
  datetime : String
  tide : Int
  type : String
deriving DecidableEq, Repr

/-! ## Observed-tide extraction (`extract_observed_tide`, lines 33–48)

The data pattern is the regex
`(\d{4})\s+(\d{1,2})\s+(\d{1,2})\s+(\d{1,2})\s+(\d{1,2})\s+(\d+|9999)`
applied with `re.findall` to the located data-section text
(`obs_section_match.group(1)`).  The matcher below implements exactly
this pattern (with `\d` and `\s` read as their ASCII classes): each
numeric group takes a run of digit characters, bounded groups fail
when the run at the current position cannot satisfy both the bound and
the mandatory following whitespace, and the scan is the leftmost
non-overlapping scan of `findall`. -/

/-- Characters of the regex class `\s` (ASCII fragment). -/
def isSpaceChar (c : Char) : Bool :=
  c == ' ' || c == '\t' || c == '\n' || c == '\r' || c == '\x0b' || c == '\x0c'

/-- Match `\s+`: at least one whitespace character, consumed greedily. -/
def matchSpaces (cs : List Char) : Option (List Char) :=
  if (cs.takeWhile isSpaceChar).isEmpty then none
  else some (cs.dropWhile isSpaceChar)

/-- Match `(\d{4})\s+`.  The digit run at this position must have length
exactly four: with a longer run the mandatory `\s+` hits a digit, and the
fixed bound `{4}` leaves no backtracking. -/
def matchYear (cs : List Char) : Option (String × List Char) :=
  let d := cs.takeWhile Char.isDigit
  if d.length = 4 then
    (matchSpaces (cs.dropWhile Char.isDigit)).map (fun r => (String.mk d, r))
  else none

/-- Match `(\d{1,2})\s+`.  The digit run must have length one or two: with
a longer run both the two-digit and the one-digit attempt leave a digit
under the mandatory `\s+`, so the whole group fails. -/
def matchTwo (cs : List Char) : Option (String × List Char) :=
  let d := cs.takeWhile Char.isDigit
  if d.length = 1 ∨ d.length = 2 then
    (matchSpaces (cs.dropWhile Char.isDigit)).map (fun r => (String.mk d, r))
  else none

/-- Match the final group `(\d+|9999)`: a maximal nonempty digit run (the
`9999` alternative is subsumed by the greedy `\d+`). -/
def matchValue (cs : List Char) : Option (String × List Char) :=
  let d := cs.takeWhile Char.isDigit
  if d.isEmpty then none else some (String.mk d, cs.dropWhile Char.isDigit)

/-- One raw tuple captured by the data pattern:
`year month day hour minute value`, all as captured strings. -/
structure ObsTuple where
  year : String
  month : String
  day : String
  hour : String
  minute : String
  value : String
deriving DecidableEq, Repr

/-- Attempt to match the full data pattern at the current position. -/
def matchTupleAt (cs : List Char) : Option (ObsTuple × List Char) := do
  let (y, r1) ← matchYear cs
  let (mo, r2) ← matchTwo r1
  let (dy, r3) ← matchTwo r2
  let (hr, r4) ← matchTwo r3
  let (mi, r5) ← matchTwo r4
  let (v, r6) ← matchValue r5
  some (⟨y, mo, dy, hr, mi, v⟩, r6)

/-- Leftmost non-overlapping scan of `re.findall`: try the pattern at each
position, and continue after the end of every successful match.  The fuel
argument only serves termination; `observedMatches` passes the text length,
which is an upper bound on the number of scan steps because every step
consumes at least one character. -/
def findIter : Nat → List Char → List ObsTuple
  | 0, _ => []
  | _ + 1, [] => []
  | fuel + 1, c :: cs =>
    match matchTupleAt (c :: cs) with
    | some (t, rest) => t :: findIter fuel rest
    | none => findIter fuel cs

/-- `re.findall(data_pattern, obs_data_text)` (line 35). -/
def observedMatches (s : String) : List ObsTuple := findIter s.data.length s.data

/-- Python `str.zfill`: left-pad with `'0'` to the requested width,
keeping a leading sign in front of the padding. -/
def zfill (width : Nat) (s : String) : String :=
  if width ≤ s.length then s
  else
    let pad := String.mk (List.replicate (width - s.length) '0')
    match s.data with
    | '+' :: rest => "+" ++ pad ++ String.mk rest
    | '-' :: rest => "-" ++ pad ++ String.mk rest
    | _ => pad ++ s

/-- Numeric value of a digit character. -/
def digitVal (c : Char) : Nat := c.toNat - 48

/-- Value of a string of decimal digits. -/
def natOfDigits (cs : List Char) : Nat := cs.foldl (fun a c => 10 * a + digitVal c) 0

/-- Python `int()` applied to a capture of the digits-only value group of
the observed data pattern (the group matches only digit characters, so
the parse cannot fail and cannot produce a sign). -/
def intOfDigits (s : String) : Int := (natOfDigits s.data : Int)

/-- The record built for one non-sentinel tuple (lines 41–46):
`f"{year}-{month.zfill(2)}-{day.zfill(2)}T{hour.zfill(2)}:{minute.zfill(2)}:00"`. -/
def obsRecord (t : ObsTuple) : TideRecord :=
  { datetime := t.year ++ "-" ++ zfill 2 t.month ++ "-" ++ zfill 2 t.day ++ "T"
      ++ zfill 2 t.hour ++ ":" ++ zfill 2 t.minute ++ ":00"
  , tide := intOfDigits t.value
  , type := "observed" }

/-- Lines 33–48 of `fetch_observed_tide.py`, applied to the located
data-section text (`obs_section_match.group(1)`): scan for tuples and
emit a record for every tuple whose captured value string is not the
literal `'9999'` (`if tide_cm != '9999'`). -/
def extract_observed_tide (sectionText : String) : List TideRecord :=
  (observedMatches sectionText).filterMap
    (fun t => if t.value != "9999" then some (obsRecord t) else none)

/-! ## Observed-tide persistence (`save_data`, lines 50–84) -/

/-- One step of the Python dict comprehension
`{item['datetime']: item for item in all_data}`: a repeated key updates
the stored record in place, a fresh key is appended. -/
def dictInsert (acc : List TideRecord) (r : TideRecord) : List TideRecord :=
  if acc.any (fun x => x.datetime == r.datetime) then
    acc.map (fun x => if x.datetime == r.datetime then r else x)
  else acc ++ [r]

/-- `{item['datetime']: item for item in all_data}.values()` (line 66):
insertion-ordered, last-write-wins deduplication by `datetime`. -/
def dedupByDatetime (l : List TideRecord) : List TideRecord := l.foldl dictInsert []

/-- Code-point lexicographic comparison of character lists: the
comparison Python applies to `str` values (the script compares
`datetime` keys with `>=` and sorts by them). -/
def charListLt : List Char → List Char → Bool
  | _, [] => false
  | [], _ :: _ => true
  | a :: as, b :: bs =>
    if a.toNat < b.toNat then true
    else if b.toNat < a.toNat then false
    else charListLt as bs

/-- Python `s < t` on strings: strict code-point lexicographic order. -/
@[reducible] def strLt (s t : String) : Prop := charListLt s.data t.data = true

/-- Python `s <= t` on strings: the negation of `t < s`. -/
@[reducible] def strLe (s t : String) : Prop := charListLt t.data s.data = false

instance : DecidableRel strLt :=
  fun s t => inferInstanceAs (Decidable (charListLt s.data t.data = true))

instance : DecidableRel strLe :=
  fun s t => inferInstanceAs (Decidable (charListLt t.data s.data = false))

/-- The sort key of line 67: `key=lambda x: x['datetime']`. -/
@[reducible] def byDatetime (a b : TideRecord) : Prop := strLe a.datetime b.datetime

instance : DecidableRel byDatetime :=
  fun a b => inferInstanceAs (Decidable (strLe a.datetime b.datetime))

/-- Strict ascending order of `datetime` strings, the order in which a
merged store with pairwise-distinct keys is laid out. -/
@[reducible] def byDatetimeLt (a b : TideRecord) : Prop := strLt a.datetime b.datetime

instance : DecidableRel byDatetimeLt :=
  fun a b => inferInstanceAs (Decidable (strLt a.datetime b.datetime))

/-- Lines 64–67 of `save_data`: concatenate existing and new records,
deduplicate by `datetime` (later wins), and stably sort ascending by the
`datetime` string. -/
def mergeRecords (existing newData : List TideRecord) : List TideRecord :=
  List.insertionSort byDatetime (dedupByDatetime (existing ++ newData))

/-- Line 76: the records on or after today's midnight,
`[d for d in sorted_data if d['datetime'] >= today + 'T00:00:00']`. -/
def qualifying (today : String) (l : List TideRecord) : List TideRecord :=
  l.filter (fun d => decide (strLe (today ++ "T00:00:00") d.datetime))

/-- Line 78: `recent_data[-288:]`, the content written to `latest.json`. -/
def latestWindow (today : String) (l : List TideRecord) : List TideRecord :=
  (qualifying today l).drop ((qualifying today l).length - 288)

/-- The whole of `save_data` as a state transformer: given today's date
string, the current content of the date-stamped store file and the newly
extracted batch, return the pair (new store content, `latest.json`
content). -/
def save_data (today : String) (existing newData : List TideRecord) :
    List TideRecord × List TideRecord :=
  let sortedData := mergeRecords existing newData
  (sortedData, latestWindow today sortedData)

/-- Dict-style lookup of the record stored under a `datetime` key. -/
def lookupDatetime (k : String) (l : List TideRecord) : Option TideRecord :=
  l.find? (fun r => r.datetime == k)

/-! ## JSON layer

`save_data` writes the record list with `json.dump` and re-reads it with
`json.load`.  The values that cross that boundary are modelled as a JSON
tree; encoding a record produces the three-field object the script
writes, decoding reads the fields back dict-style by key. -/

/-- JSON values, as produced by `json.dump` / consumed by `json.load`. -/
inductive JsonValue where
  | null
  | str (s : String)
  | num (n : Int)
  | arr (items : List JsonValue)
  | obj (fields : List (String × JsonValue))

/-- The object `json.dump` writes for one record. -/
def recordToJson (r : TideRecord) : JsonValue :=
  .obj [("datetime", .str r.datetime), ("tide", .num r.tide), ("type", .str r.type)]

/-- Dict-style field access on a decoded JSON object. -/
def jsonField (key : String) (fields : List (String × JsonValue)) : Option JsonValue :=
  (fields.find? (fun f => f.1 == key)).map Prod.snd

/-- Read a JSON value as a string. -/
def asStr : JsonValue → Option String
  | .str s => some s
  | _ => none

/-- Read a JSON value as an integer. -/
def asInt : JsonValue → Option Int
  | .num n => some n
  | _ => none

/-- Rebuild a record from its decoded JSON object. -/
def recordOfJson : JsonValue → Option TideRecord
  | .obj fields => do
      let d ← jsonField "datetime" fields >>= asStr
      let t ← jsonField "tide" fields >>= asInt
      let ty ← jsonField "type" fields >>= asStr
      some ⟨d, t, ty⟩
  | _ => none

/-- `json.dump` of a record list. -/
def encodeRecords (l : List TideRecord) : JsonValue := .arr (l.map recordToJson)

/-- `json.load` of a stored record array. -/
def decodeRecords : JsonValue → Option (List TideRecord)
  | .arr items => items.mapM recordOfJson
  | _ => none

/-! ## Prediction extraction (`fetch_prediction_data`, lines 33–62)

The HTTP fetch and HTML parse are abstracted: the function receives the
target table as `none` (table absent, line 34) or as the list of its
rows, each row the list of its `td` cell texts.  Every exception inside
the `try` block — an index error on a missing row or cell, or a
`ValueError` from `int()` — is caught at line 60 and becomes `None`,
which the `Option` bind structure reproduces. -/

/-- Python `str.strip()` with no argument: remove leading and trailing
whitespace characters. -/
def pyStrip (s : String) : String :=
  String.mk (((s.data.dropWhile isSpaceChar).reverse.dropWhile isSpaceChar).reverse)

/-- Python `str.replace(' ', '')`: remove every space character. -/
def removeSpaces (s : String) : String :=
  String.mk (s.data.filter (fun c => c != ' '))

/-- Python `int(str)`: optional surrounding whitespace, an optional
sign, then at least one decimal digit (digit-grouping underscores are
not modelled).  `none` models the `ValueError`. -/
def pyInt (s : String) : Option Int :=
  match (pyStrip s).data with
  | '-' :: ds =>
      if !ds.isEmpty && ds.all Char.isDigit then some (-(natOfDigits ds : Int)) else none
  | '+' :: ds =>
      if !ds.isEmpty && ds.all Char.isDigit then some ((natOfDigits ds : Int)) else none
  | ds =>
      if !ds.isEmpty && ds.all Char.isDigit then some ((natOfDigits ds : Int)) else none

/-- The body of the `for j in range(24)` loop (lines 47–56): index the
hour label and the level cell, remove every space from the level
(`levels[j].replace(' ', '')`), parse with `int`, and build
`{datetime: f"{date}T{hours[j].zfill(2)}:00:00", tide, type}`. -/
def predLoopBody (dateStr : String) (hours levels : List String) (j : Nat) :
    Option TideRecord := do
  let h ← hours[j]?
  let l ← levels[j]?
  let v ← pyInt (removeSpaces l)
  some ⟨dateStr ++ "T" ++ zfill 2 h ++ ":00:00", v, "prediction"⟩

/-- Lines 33–58 of `fetch_prediction_data`: `none` when the table is
absent; otherwise take rows 0–3 (an out-of-range index is the caught
`IndexError`), drop each row's label cell, strip the cell texts
(`td.text.strip()`), concatenate rows 0 and 2 into the 24 hour labels
and rows 1 and 3 into the 24 levels, and run the 24-iteration loop. -/
def fetch_prediction_data (dateStr : String) (tableRows : Option (List (List String))) :
    Option (List TideRecord) :=
  match tableRows with
  | none => none
  | some rows => do
      let r0 ← rows[0]?
      let r1 ← rows[1]?
      let r2 ← rows[2]?
      let r3 ← rows[3]?
      let hours := (r0.drop 1).map pyStrip ++ (r2.drop 1).map pyStrip
      let levels := (r1.drop 1).map pyStrip ++ (r3.drop 1).map pyStrip
      (List.range 24).mapM (predLoopBody dateStr hours levels)

/-! ## Prediction driver (`main`, lines 89–109) -/

/-- The driver loop over the `DAYS_TO_FETCH` target dates: each list
entry is the result of `fetch_prediction_data` for one date, in date
order.  A falsy result (`None`, or an empty list — `if data:`) is
skipped, a successful day's records are appended to `all_data`; the
persister is invoked on the accumulated list only when it is nonempty
(`if all_data:`), and `none` models the run that writes no file. -/
def runPredictionDriver (results : List (Option (List TideRecord))) :
    Option (List TideRecord) :=
  let all_data := results.foldl
    (fun acc r =>
      match r with
      | some d => if d.isEmpty then acc else acc ++ d
      | none => acc) []
  if all_data.isEmpty then none else some all_data

/-- A sample 7-date driver input: five successful dates of 24 hourly
records each, two failed dates. -/
def sampleDriverResults : List (Option (List TideRecord)) :=
  [some ((List.range 24).map (fun j => ⟨Nat.repr j, 1, "prediction"⟩)),
   some ((List.range 24).map (fun j => ⟨Nat.repr j, 2, "prediction"⟩)),
   none,
   some ((List.range 24).map (fun j => ⟨Nat.repr j, 3, "prediction"⟩)),
   none,
   some ((List.range 24).map (fun j => ⟨Nat.repr j, 4, "prediction"⟩)),
   some ((List.range 24).map (fun j => ⟨Nat.repr j, 5, "prediction"⟩))]

/-- A canonical decimal numeral: no leading zero, except for a
single-digit numeral. -/
def canonicalNumeral (s : String) : Prop :=
  s.data.head? ≠ some '0' ∨ s.data.length = 1

instance (s : String) : Decidable (canonicalNumeral s) := by
  unfold canonicalNumeral; infer_instance

/-! ## The code-point lexicographic order is a linear order -/

/-- Lexicographic comparison is irreflexive. -/
theorem charListLt_irrefl (l : List Char) : charListLt l l = false := by
  induction l with
  | nil => rfl
  | cons a as ih =>
    simp only [charListLt]
    rw [if_neg (lt_irrefl _), if_neg (lt_irrefl _)]
    exact ih

/-- Lexicographic comparison is transitive. -/
theorem charListLt_trans : ∀ {l₁ l₂ l₃ : List Char}, charListLt l₁ l₂ = true →
    charListLt l₂ l₃ = true → charListLt l₁ l₃ = true := by
  intro l₁
  induction l₁ with
  | nil =>
    intro l₂ l₃ h₁ h₂
    cases l₂ with
    | nil => exact h₂
    | cons b bs =>
      cases l₃ with
      | nil => simp [charListLt] at h₂
      | cons c cs => rfl
  | cons a as ih =>
    intro l₂ l₃ h₁ h₂
    cases l₂ with
    | nil => simp [charListLt] at h₁
    | cons b bs =>
      cases l₃ with
      | nil => simp [charListLt] at h₂
      | cons c cs =>
        simp only [charListLt] at h₁ h₂ ⊢
        by_cases hab : a.toNat < b.toNat
        · by_cases hbc : b.toNat < c.toNat
          · rw [if_pos (by omega)]
          · rw [if_neg hbc] at h₂
            by_cases hcb : c.toNat < b.toNat
            · rw [if_pos hcb] at h₂
              exact absurd h₂ (by simp)
            · rw [if_pos (by omega)]
        · rw [if_neg hab] at h₁
          by_cases hba : b.toNat < a.toNat
          · rw [if_pos hba] at h₁
            exact absurd h₁ (by simp)
          · rw [if_neg hba] at h₁
            by_cases hbc : b.toNat < c.toNat
            · rw [if_pos (by omega)]
            · rw [if_neg hbc] at h₂
              by_cases hcb : c.toNat < b.toNat
              · rw [if_pos hcb] at h₂
                exact absurd h₂ (by simp)
              · rw [if_neg hcb] at h₂
                rw [if_neg (by omega), if_neg (by omega)]
                exact ih h₁ h₂

/-- Two lists on which lexicographic comparison fails both ways are
equal. -/
theorem charListLt_conn : ∀ {l₁ l₂ : List Char}, charListLt l₁ l₂ = false →
    charListLt l₂ l₁ = false → l₁ = l₂ := by
  intro l₁
  induction l₁ with
  | nil =>
    intro l₂ h₁ h₂
    cases l₂ with
    | nil => rfl
    | cons b bs => simp [charListLt] at h₁
  | cons a as ih =>
    intro l₂ h₁ h₂
    cases l₂ with
    | nil => simp [charListLt] at h₂
    | cons b bs =>
      simp only [charListLt] at h₁ h₂
      by_cases hab : a.toNat < b.toNat
      · rw [if_pos hab] at h₁
        exact absurd h₁ (by simp)
      · by_cases hba : b.toNat < a.toNat
        · rw [if_pos hba] at h₂
          exact absurd h₂ (by simp)
        · rw [if_neg hab, if_neg hba] at h₁
          have hnat : a.toNat = b.toNat := by omega
          have hA : a = b := Char.ext (UInt32.ext hnat)
          rw [if_neg hba, if_neg hab] at h₂
          rw [hA, ih h₁ h₂]

/-- Lexicographic comparison is asymmetric. -/
theorem charListLt_asymm {l₁ l₂ : List Char} (h : charListLt l₁ l₂ = true) :
    charListLt l₂ l₁ = false := by
  cases hx : charListLt l₂ l₁ with
  | false => rfl
  | true =>
    have := charListLt_trans h hx
    rw [charListLt_irrefl] at this
    exact absurd this (by simp)

/-- The weak string order is total. -/
theorem strLe_total (s t : String) : strLe s t ∨ strLe t s := by
  unfold strLe
  by_cases h : charListLt t.data s.data = true
  · right
    exact charListLt_asymm h
  · left
    exact Bool.not_eq_true _ ▸ h

/-- The weak string order is transitive. -/
theorem strLe_trans {s t u : String} (h₁ : strLe s t) (h₂ : strLe t u) : strLe s u := by
  unfold strLe at h₁ h₂ ⊢
  cases hus : charListLt u.data s.data with
  | false => rfl
  | true =>
    cases hst : charListLt s.data t.data with
    | true =>
      have := charListLt_trans hus hst
      exact absurd this (by rw [h₂]; simp)
    | false =>
      have hd : s.data = t.data := charListLt_conn hst h₁
      rw [hd] at hus
      exact absurd hus (by rw [h₂]; simp)

/-- The strict string order is transitive. -/
theorem strLt_trans {s t u : String} (h₁ : strLt s t) (h₂ : strLt t u) : strLt s u :=
  charListLt_trans h₁ h₂

/-- The strict string order is asymmetric. -/
theorem strLt_asymm {s t : String} (h : strLt s t) : ¬ strLt t s := by
  unfold strLt at h ⊢
  rw [charListLt_asymm h]
  simp

/-- Equal-data strings are equal. -/
theorem string_eq_of_data_eq {s t : String} (h : s.data = t.data) : s = t :=
  congrArg String.mk h

/-- A weak inequality between distinct strings is strict. -/
theorem strLt_of_strLe_of_ne {s t : String} (h : strLe s t) (hne : s ≠ t) :
    strLt s t := by
  unfold strLe at h
  unfold strLt
  cases hst : charListLt s.data t.data with
  | true => rfl
  | false => exact absurd (string_eq_of_data_eq (charListLt_conn hst h)) hne

/-- Strictly smaller strings are distinct. -/
theorem ne_of_strLt {s t : String} (h : strLt s t) : s ≠ t := by
  intro he
  rw [he] at h
  unfold strLt at h
  rw [charListLt_irrefl] at h
  exact absurd h (by simp)

/-- The strict string order refines the weak one. -/
theorem strLe_of_strLt {s t : String} (h : strLt s t) : strLe s t :=
  charListLt_asymm h

/-! ## Lemmas about the dict-based deduplication -/

/-- The in-place update of `dictInsert` never changes a record's key. -/
theorem datetime_update (r x : TideRecord) :
    (if x.datetime == r.datetime then r else x).datetime = x.datetime := by
  split
  · next h => exact (eq_of_beq h).symm
  · rfl

/-- A dict insertion seen through lookup: the inserted record is found
under its own key, every other key is unaffected. -/
theorem lookupDatetime_dictInsert (k : String) (acc : List TideRecord) (r : TideRecord) :
    lookupDatetime k (dictInsert acc r) =
      if r.datetime = k then some r else lookupDatetime k acc := by
  unfold dictInsert lookupDatetime
  split
  · next hany =>
    rw [List.find?_map]
    have hcomp : ((fun x : TideRecord => x.datetime == k) ∘
        fun x => if x.datetime == r.datetime then r else x)
        = (fun x : TideRecord => x.datetime == k) := by
      funext x
      simp only [Function.comp_apply]
      rw [datetime_update]
    rw [hcomp]
    by_cases hrk : r.datetime = k
    · rw [if_pos hrk]
      obtain ⟨x, hx, hpx⟩ := List.any_eq_true.mp hany
      have hxk : (x.datetime == k) = true := by
        rw [← hrk]
        exact hpx
      have hsome : (List.find? (fun x => x.datetime == k) acc).isSome :=
        List.find?_isSome.mpr ⟨x, hx, hxk⟩
      obtain ⟨y, hy⟩ := Option.isSome_iff_exists.mp hsome
      rw [hy, Option.map_some']
      have hyk : y.datetime = k := by
        have h0 := List.find?_some hy
        simpa using h0
      have : (y.datetime == r.datetime) = true := beq_iff_eq.mpr (hyk.trans hrk.symm)
      rw [this]
      simp
    · rw [if_neg hrk]
      cases hfd : List.find? (fun x => x.datetime == k) acc with
      | none => rfl
      | some y =>
        have hyk : y.datetime = k := by
          have h0 := List.find?_some hfd
          simpa using h0
        have : (y.datetime == r.datetime) = false :=
          beq_eq_false_iff_ne.mpr (fun hh => hrk ((hh.symm.trans hyk)))
        rw [Option.map_some', this]
        simp
  · next hany =>
    have hall : ∀ x ∈ acc, ¬(x.datetime == r.datetime) = true :=
      List.any_eq_false.mp (Bool.not_eq_true _ ▸ hany)
    rw [List.find?_append]
    by_cases hrk : r.datetime = k
    · have h1 : List.find? (fun x => x.datetime == k) acc = none := by
        rw [List.find?_eq_none]
        intro x hx
        rw [← hrk]
        exact hall x hx
      have h2 : List.find? (fun x => x.datetime == k) [r] = some r :=
        List.find?_cons_of_pos _ (beq_iff_eq.mpr hrk)
      rw [h1, h2, Option.none_or, if_pos hrk]
    · have h2 : List.find? (fun x => x.datetime == k) [r] = List.find? _ [] :=
        List.find?_cons_of_neg _ (by simp [hrk])
      rw [h2]
      simp [hrk]

/-- Set of keys after a dict insertion: the key list is unchanged on an
update, extended on a fresh insert; either way `Nodup` is preserved. -/
theorem nodupKeys_dictInsert (acc : List TideRecord) (r : TideRecord)
    (h : (acc.map TideRecord.datetime).Nodup) :
    ((dictInsert acc r).map TideRecord.datetime).Nodup := by
  unfold dictInsert
  split
  · next hany =>
    have : ((acc.map fun x => if x.datetime == r.datetime then r else x).map
        TideRecord.datetime) = acc.map TideRecord.datetime := by
      rw [List.map_map]
      exact List.map_congr_left (fun x _ => datetime_update r x)
    rw [this]
    exact h
  · next hany =>
    have hall : ∀ x ∈ acc, ¬(x.datetime == r.datetime) = true :=
      List.any_eq_false.mp (Bool.not_eq_true _ ▸ hany)
    rw [List.map_append]
    rw [List.nodup_append]
    refine ⟨h, List.nodup_singleton _, ?_⟩
    intro a ha hb
    simp only [List.map_cons, List.map_nil, List.mem_singleton] at hb
    obtain ⟨x, hx, hxa⟩ := List.mem_map.mp ha
    exact hall x hx (beq_iff_eq.mpr (hxa.trans hb))

/-- Folding dict insertions preserves key nodup-ness. -/
theorem nodupKeys_foldl (l : List TideRecord) (acc : List TideRecord)
    (h : (acc.map TideRecord.datetime).Nodup) :
    (((l.foldl dictInsert acc)).map TideRecord.datetime).Nodup := by
  induction l generalizing acc with
  | nil => exact h
  | cons r rest ih => exact ih _ (nodupKeys_dictInsert acc r h)

/-- The deduplicated list has pairwise distinct `datetime` keys. -/
theorem nodupKeys_dedupByDatetime (l : List TideRecord) :
    ((dedupByDatetime l).map TideRecord.datetime).Nodup :=
  nodupKeys_foldl l [] List.nodup_nil

/-- Lookup through a fold of dict insertions: the last inserted record
with the requested key wins; keys never inserted fall through to the
accumulator. -/
theorem lookupDatetime_foldl (k : String) (l acc : List TideRecord) :
    lookupDatetime k (l.foldl dictInsert acc) =
      ((l.filter (fun r => r.datetime == k)).getLast?).or (lookupDatetime k acc) := by
  induction l generalizing acc with
  | nil => simp [List.foldl_nil, List.filter_nil]
  | cons r rest ih =>
    rw [List.foldl_cons, ih, lookupDatetime_dictInsert, List.filter_cons]
    by_cases hrk : r.datetime = k
    · rw [if_pos (beq_iff_eq.mpr hrk), if_pos hrk]
      have hcons : (r :: rest.filter (fun x => x.datetime == k)).getLast?
          = ((rest.filter (fun x => x.datetime == k)).getLast?).or (some r) := by
        show (([r] ++ rest.filter (fun x => x.datetime == k)).getLast?) = _
        rw [List.getLast?_append]
        rfl
      rw [hcons, Option.or_assoc]
      rfl
    · rw [if_neg hrk, if_neg (show ¬((r.datetime == k) = true) by simp [hrk])]

/-- `{item['datetime']: item for item in all_data}` keyed lookup: each
key maps to the **last** record in the concatenated list carrying it. -/
theorem lookupDatetime_dedupByDatetime (k : String) (l : List TideRecord) :
    lookupDatetime k (dedupByDatetime l) =
      (l.filter (fun r => r.datetime == k)).getLast? := by
  rw [dedupByDatetime, lookupDatetime_foldl]
  simp [lookupDatetime]

/-- With pairwise-distinct keys, every member is found under its key. -/
theorem lookupDatetime_of_mem {l : List TideRecord}
    (h : (l.map TideRecord.datetime).Nodup) {r : TideRecord} (hmem : r ∈ l) :
    lookupDatetime r.datetime l = some r := by
  induction l with
  | nil => cases hmem
  | cons x xs ih =>
    rw [List.map_cons, List.nodup_cons] at h
    rcases List.mem_cons.mp hmem with rfl | htl
    · exact List.find?_cons_of_pos _ (by simp)
    · have hx : ¬(x.datetime == r.datetime) = true := by
        simp only [beq_iff_eq]
        intro he
        apply h.1
        rw [he]
        exact List.mem_map.mpr ⟨r, htl, rfl⟩
      have hstep : List.find? (fun r1 => r1.datetime == r.datetime) (x :: xs)
          = List.find? (fun r1 => r1.datetime == r.datetime) xs :=
        List.find?_cons_of_neg xs hx
      rw [lookupDatetime, hstep]
      exact ih h.2 htl

/-- Lookup only inspects membership once keys are pairwise distinct, so
it transfers along permutations. -/
theorem lookupDatetime_eq_of_perm {l₁ l₂ : List TideRecord} (hp : l₁.Perm l₂)
    (h₁ : (l₁.map TideRecord.datetime).Nodup) (k : String) :
    lookupDatetime k l₁ = lookupDatetime k l₂ := by
  have h₂ : (l₂.map TideRecord.datetime).Nodup :=
    ((hp.map TideRecord.datetime).nodup_iff).mp h₁
  cases hl : lookupDatetime k l₁ with
  | some r =>
    have hmem : r ∈ l₁ := List.mem_of_find?_eq_some hl
    have hk : r.datetime = k := by simpa using List.find?_some hl
    have h2 := lookupDatetime_of_mem h₂ (hp.mem_iff.mp hmem)
    rw [hk] at h2
    exact h2.symm
  | none =>
    have hall := List.find?_eq_none.mp hl
    symm
    rw [lookupDatetime, List.find?_eq_none]
    intro x hx
    exact hall x (hp.mem_iff.mpr hx)

/-- The merged store is a permutation of the deduplicated concatenation. -/
theorem mergeRecords_perm (e n : List TideRecord) :
    (mergeRecords e n).Perm (dedupByDatetime (e ++ n)) :=
  List.perm_insertionSort byDatetime _

/-- The merged store has pairwise-distinct `datetime` keys. -/
theorem nodupKeys_mergeRecords (e n : List TideRecord) :
    ((mergeRecords e n).map TideRecord.datetime).Nodup :=
  (((mergeRecords_perm e n).map TideRecord.datetime).nodup_iff).mpr
    (nodupKeys_dedupByDatetime _)

/-- Lookup in the merged store: the last record of `existing ++ new`
carrying the requested `datetime` key. -/
theorem lookupDatetime_mergeRecords (k : String) (e n : List TideRecord) :
    lookupDatetime k (mergeRecords e n) =
      ((e ++ n).filter (fun r => r.datetime == k)).getLast? := by
  rw [lookupDatetime_eq_of_perm (mergeRecords_perm e n) (nodupKeys_mergeRecords e n) k,
    lookupDatetime_dedupByDatetime]

/-- The merged store is sorted (weakly) by `datetime`. -/
theorem mergeRecords_sorted (e n : List TideRecord) :
    (mergeRecords e n).Pairwise byDatetime :=
  @List.sorted_insertionSort TideRecord byDatetime _
    ⟨fun a b => strLe_total a.datetime b.datetime⟩
    ⟨fun _ _ _ h h' => strLe_trans h h'⟩
    (dedupByDatetime (e ++ n))

/-- The merged store is sorted **strictly** by `datetime`: weak
sortedness plus pairwise-distinct keys. -/
theorem mergeRecords_pairwise_lt (e n : List TideRecord) :
    (mergeRecords e n).Pairwise byDatetimeLt := by
  have h1 := mergeRecords_sorted e n
  have h2 : (mergeRecords e n).Pairwise (fun a b => a.datetime ≠ b.datetime) :=
    List.pairwise_map.mp (nodupKeys_mergeRecords e n)
  exact (h1.and h2).imp (fun hab => strLt_of_strLe_of_ne hab.1 hab.2)

/-- Two strictly-sorted stores with distinct keys and equal lookups are
equal as lists. -/
theorem eq_of_pairwise_lt_of_lookup_eq {l₁ l₂ : List TideRecord}
    (h₁ : l₁.Pairwise byDatetimeLt) (h₂ : l₂.Pairwise byDatetimeLt)
    (hn₁ : (l₁.map TideRecord.datetime).Nodup) (hn₂ : (l₂.map TideRecord.datetime).Nodup)
    (h : ∀ k, lookupDatetime k l₁ = lookupDatetime k l₂) : l₁ = l₂ := by
  have hd₁ : l₁.Nodup := List.Nodup.of_map _ hn₁
  have hd₂ : l₂.Nodup := List.Nodup.of_map _ hn₂
  have hperm : l₁.Perm l₂ := by
    rw [List.perm_ext_iff_of_nodup hd₁ hd₂]
    intro r
    constructor
    · intro hr
      have := lookupDatetime_of_mem hn₁ hr
      rw [h r.datetime] at this
      exact List.mem_of_find?_eq_some this
    · intro hr
      have := lookupDatetime_of_mem hn₂ hr
      rw [← h r.datetime] at this
      exact List.mem_of_find?_eq_some this
  exact @List.eq_of_perm_of_sorted TideRecord byDatetimeLt
    ⟨fun _ _ h h' => absurd h' (strLt_asymm h)⟩ _ _ hperm h₁ h₂

/-- Folding dict insertions over records whose keys are all fresh simply
appends them. -/
theorem foldl_dictInsert_eq_append (l : List TideRecord) :
    ∀ acc : List TideRecord, ((acc ++ l).map TideRecord.datetime).Nodup →
      l.foldl dictInsert acc = acc ++ l := by
  induction l with
  | nil => intro acc _; simp
  | cons r rest ih =>
    intro acc h
    have hdisj := (List.nodup_append.mp (by simpa using h)).2.2
    have hfresh : acc.any (fun x => x.datetime == r.datetime) = false := by
      rw [List.any_eq_false]
      intro x hx
      simp only [beq_iff_eq]
      intro he
      exact hdisj (List.mem_map.mpr ⟨x, hx, rfl⟩) (by rw [he]; simp)
    rw [List.foldl_cons]
    have hstep : dictInsert acc r = acc ++ [r] := by
      rw [dictInsert, if_neg]
      simp [hfresh]
    rw [hstep, ih (acc ++ [r]) (by simpa using h)]
    simp

/-- Deduplication leaves a list with pairwise-distinct keys unchanged. -/
theorem dedupByDatetime_eq_self {l : List TideRecord}
    (h : (l.map TideRecord.datetime).Nodup) : dedupByDatetime l = l := by
  have := foldl_dictInsert_eq_append l [] (by simpa using h)
  simpa [dedupByDatetime] using this

/-- The last element of the list view of an option is the option. -/
theorem toList_getLast? (o : Option TideRecord) : o.toList.getLast? = o := by
  cases o <;> rfl

/-- With pairwise-distinct keys, filtering by one key yields the list
view of the lookup result. -/
theorem filter_key_of_nodupKeys {l : List TideRecord}
    (h : (l.map TideRecord.datetime).Nodup) (k : String) :
    l.filter (fun r => r.datetime == k) = (lookupDatetime k l).toList := by
  induction l with
  | nil => rfl
  | cons x xs ih =>
    rw [List.map_cons, List.nodup_cons] at h
    rw [List.filter_cons]
    by_cases hx : x.datetime = k
    · rw [if_pos (by simp [hx])]
      have hnone : xs.filter (fun r => r.datetime == k) = [] := by
        rw [List.filter_eq_nil_iff]
        intro a ha
        simp only [beq_iff_eq]
        intro he
        apply h.1
        rw [hx, ← he]
        exact List.mem_map.mpr ⟨a, ha, rfl⟩
      have hfound : lookupDatetime k (x :: xs) = some x :=
        List.find?_cons_of_pos _ (by simp [hx])
      rw [hnone, hfound]
      rfl
    · rw [if_neg (by simp [hx])]
      have hstep : lookupDatetime k (x :: xs) = lookupDatetime k xs := by
        show List.find? (fun r => r.datetime == k) (x :: xs)
            = List.find? (fun r => r.datetime == k) xs
        exact List.find?_cons_of_neg xs (by simp [hx])
      rw [hstep]
      exact ih h.2

/-! ## JSON round trip -/

/-- Decoding inverts encoding on a single record. -/
theorem recordOfJson_recordToJson (r : TideRecord) :
    recordOfJson (recordToJson r) = some r := rfl

/-- Decoding inverts encoding on a full store. -/
theorem decodeRecords_encodeRecords (l : List TideRecord) :
    decodeRecords (encodeRecords l) = some l := by
  induction l with
  | nil => rfl
  | cons r rest ih =>
    show ((r :: rest).map recordToJson).mapM recordOfJson = some (r :: rest)
    have ih' : (rest.map recordToJson).mapM recordOfJson = some rest := ih
    rw [List.map_cons, List.mapM_cons, recordOfJson_recordToJson, ih']
    rfl

/-! ## Claims about the observed persister -/

/-- C2: whenever an existing record and a new record share the same
`datetime` key, the record stored under that key after the merge is a
record from the **new** batch — precisely, the last new record with
that key (last-write-wins). -/
theorem observed_merge_last_write_wins (e n : List TideRecord) (t0 : String)
    (h : n.filter (fun r => r.datetime == t0) ≠ []) :
    lookupDatetime t0 (mergeRecords e n) = (n.filter (fun r => r.datetime == t0)).getLast? ∧
    ∀ r : TideRecord, lookupDatetime t0 (mergeRecords e n) = some r → r ∈ n := by
  have hmain : lookupDatetime t0 (mergeRecords e n)
      = (n.filter (fun r => r.datetime == t0)).getLast? := by
    rw [lookupDatetime_mergeRecords, List.filter_append, List.getLast?_append]
    cases hfn : (n.filter (fun r => r.datetime == t0)).getLast? with
    | none => exact absurd (List.getLast?_eq_none_iff.mp hfn) h
    | some y => rfl
  refine ⟨hmain, fun r hr => ?_⟩
  rw [hmain] at hr
  exact List.mem_of_mem_filter (List.mem_of_mem_getLast? (Option.mem_def.mpr hr))

/-- Witness for C2: the spec's own example — existing `{t0: 150}` merged
with a new batch `{t0: 160}` stores `{t0: 160}` under `t0`. -/
theorem observed_merge_last_write_wins_witness :
    lookupDatetime "2024-01-01T00:00:00"
        (mergeRecords [⟨"2024-01-01T00:00:00", 150, "observed"⟩]
          [⟨"2024-01-01T00:00:00", 160, "observed"⟩])
      = some ⟨"2024-01-01T00:00:00", 160, "observed"⟩ := by
  have h := observed_merge_last_write_wins
    [⟨"2024-01-01T00:00:00", 150, "observed"⟩]
    [⟨"2024-01-01T00:00:00", 160, "observed"⟩]
    "2024-01-01T00:00:00" (by decide)
  rw [h.1]
  decide

/-- C3: after every merge, the stored record set has each `datetime`
appearing exactly once, and is sorted ascending by the `datetime`
string. -/
theorem observed_store_nodup_sorted (e n : List TideRecord) :
    ((mergeRecords e n).map TideRecord.datetime).Nodup ∧
    (mergeRecords e n).Pairwise byDatetime :=
  ⟨nodupKeys_mergeRecords e n, mergeRecords_sorted e n⟩

/-- C5: running the persister a second time with the same new batch, on
the store the first run wrote, reproduces that store exactly. -/
theorem observed_persist_idempotent (e n : List TideRecord) :
    mergeRecords (mergeRecords e n) n = mergeRecords e n := by
  apply eq_of_pairwise_lt_of_lookup_eq (mergeRecords_pairwise_lt _ _)
    (mergeRecords_pairwise_lt _ _) (nodupKeys_mergeRecords _ _) (nodupKeys_mergeRecords _ _)
  intro k
  rw [lookupDatetime_mergeRecords, lookupDatetime_mergeRecords,
    List.filter_append, List.filter_append, List.getLast?_append, List.getLast?_append]
  cases hfn : (n.filter (fun r => r.datetime == k)).getLast? with
  | some y => rfl
  | none =>
    rw [Option.none_or, Option.none_or]
    rw [filter_key_of_nodupKeys (nodupKeys_mergeRecords e n) k, toList_getLast?,
      lookupDatetime_mergeRecords, List.filter_append, List.getLast?_append, hfn,
      Option.none_or]

/-- C6: persisting a record set into an empty store and re-loading the
written JSON yields exactly the deduplicated, datetime-sorted input. -/
theorem observed_round_trip (d : List TideRecord) :
    decodeRecords (encodeRecords (mergeRecords [] d)) =
      some (List.insertionSort byDatetime (dedupByDatetime d)) := by
  rw [decodeRecords_encodeRecords, mergeRecords, List.nil_append]

/-- C4: the `latest.json` window over a merged store consists exactly of
the qualifying records (those with `datetime` on or after today's
midnight): it keeps only qualifying records, has length
`min (#qualifying) 288`, is the final segment of the qualifying list
(whose prefix is what gets cut), has length exactly 288 whenever more
than 288 records qualify, and is chronologically sorted. -/
theorem latest_window_spec (today : String) (e n : List TideRecord) :
    (∀ r ∈ latestWindow today (mergeRecords e n),
      strLe (today ++ "T00:00:00") r.datetime) ∧
    (latestWindow today (mergeRecords e n)).length
        = min (qualifying today (mergeRecords e n)).length 288 ∧
    (qualifying today (mergeRecords e n)).take
        ((qualifying today (mergeRecords e n)).length - 288)
      ++ latestWindow today (mergeRecords e n) = qualifying today (mergeRecords e n) ∧
    (288 < (qualifying today (mergeRecords e n)).length →
      (latestWindow today (mergeRecords e n)).length = 288) ∧
    (latestWindow today (mergeRecords e n)).Pairwise byDatetimeLt := by
  refine ⟨?_, ?_, ?_, ?_, ?_⟩
  · intro r hr
    have hq : r ∈ qualifying today (mergeRecords e n) := List.mem_of_mem_drop hr
    exact of_decide_eq_true (List.mem_filter.mp hq).2
  · rw [latestWindow, List.length_drop]
    omega
  · exact List.take_append_drop _ _
  · intro h
    rw [latestWindow, List.length_drop]
    omega
  · exact List.Pairwise.sublist (List.drop_sublist _ _)
      ((mergeRecords_pairwise_lt e n).filter _)

/-- Increasing repetition counts give lexicographically increasing
lists. -/
theorem charListLt_replicate_lt : ∀ {i j : Nat}, i < j →
    charListLt (List.replicate i 'a') (List.replicate j 'a') = true := by
  intro i
  induction i with
  | zero =>
    intro j h
    cases j with
    | zero => omega
    | succ k =>
      rw [List.replicate_succ]
      rfl
  | succ i ih =>
    intro j h
    cases j with
    | zero => omega
    | succ k =>
      rw [List.replicate_succ, List.replicate_succ]
      show charListLt ('a' :: _) ('a' :: _) = true
      simp only [charListLt]
      rw [if_neg (lt_irrefl _), if_neg (lt_irrefl _)]
      exact ih (by omega)

/-- Witness for C4: a store of 289 qualifying records has a latest
window of exactly 288. -/
theorem latest_window_spec_witness :
    288 < (qualifying "" (mergeRecords []
        ((List.range 289).map
          (fun i => ⟨String.mk (List.replicate (i + 1) 'a'), 0, "observed"⟩)))).length ∧
    (latestWindow "" (mergeRecords []
        ((List.range 289).map
          (fun i => ⟨String.mk (List.replicate (i + 1) 'a'), 0, "observed"⟩)))).length
      = 288 := by
  set big : List TideRecord :=
    (List.range 289).map
      (fun i => ⟨String.mk (List.replicate (i + 1) 'a'), 0, "observed"⟩) with hbig
  have hpw : big.Pairwise byDatetimeLt := by
    rw [hbig, List.pairwise_map]
    exact (List.pairwise_lt_range 289).imp
      (fun hij => charListLt_replicate_lt (by omega))
  have hnk : (big.map TideRecord.datetime).Nodup :=
    List.pairwise_map.mpr (hpw.imp (fun h => ne_of_strLt h))
  have hded : dedupByDatetime big = big := dedupByDatetime_eq_self hnk
  have hsort : List.insertionSort byDatetime big = big :=
    List.Sorted.insertionSort_eq (hpw.imp (fun h => strLe_of_strLt h))
  have hmerge : mergeRecords [] big = big := by
    rw [mergeRecords, List.nil_append, hded, hsort]
  have hqual : qualifying "" (mergeRecords [] big) = big := by
    rw [hmerge, qualifying, List.filter_eq_self]
    intro r hr
    rw [hbig] at hr
    obtain ⟨i, hi, rfl⟩ := List.mem_map.mp hr
    apply decide_eq_true
    show charListLt (String.mk (List.replicate (i + 1) 'a')).data
        ("" ++ "T00:00:00").data = false
    rw [List.replicate_succ]
    rfl
  have hlen : big.length = 289 := by
    rw [hbig]
    simp
  have hlt : 288 < (qualifying "" (mergeRecords [] big)).length := by
    rw [hqual, hlen]
    omega
  exact ⟨hlt, (latest_window_spec "" [] big).2.2.2.1 hlt⟩

/-! ## Lemmas about the observed-data scan -/

/-- The value group captures a nonempty string of digit characters. -/
theorem matchValue_spec {cs : List Char} {v : String} {r : List Char}
    (h : matchValue cs = some (v, r)) :
    v.data ≠ [] ∧ v.data.all Char.isDigit = true := by
  simp only [matchValue] at h
  split at h
  · cases h
  · next hne =>
    rw [Option.some.injEq, Prod.mk.injEq] at h
    obtain ⟨hv, -⟩ := h
    rw [← hv]
    constructor
    · intro hnil
      apply hne
      rw [show (String.mk (cs.takeWhile Char.isDigit)).data
          = cs.takeWhile Char.isDigit from rfl] at hnil
      rw [hnil]
      rfl
    · exact List.all_eq_true.mpr (fun x hx => List.mem_takeWhile_imp hx)

/-- Every tuple produced by the pattern matcher carries a nonempty
all-digit value capture: the pattern has no way to capture a sign. -/
theorem matchTupleAt_value {cs : List Char} {t : ObsTuple} {rest : List Char}
    (h : matchTupleAt cs = some (t, rest)) :
    t.value.data ≠ [] ∧ t.value.data.all Char.isDigit = true := by
  unfold matchTupleAt at h
  simp only [bind, Option.bind_eq_some] at h
  obtain ⟨⟨y, r1⟩, hy, h⟩ := h
  obtain ⟨⟨mo, r2⟩, hmo, h⟩ := h
  obtain ⟨⟨dy, r3⟩, hdy, h⟩ := h
  obtain ⟨⟨hr, r4⟩, hhr, h⟩ := h
  obtain ⟨⟨mi, r5⟩, hmi, h⟩ := h
  obtain ⟨⟨v, r6⟩, hv, h⟩ := h
  rw [Option.some.injEq, Prod.mk.injEq] at h
  obtain ⟨ht, -⟩ := h
  rw [← ht]
  exact matchValue_spec hv

/-- Every tuple found by the scan carries a nonempty all-digit value
capture. -/
theorem findIter_value : ∀ (fuel : Nat) (cs : List Char) (t : ObsTuple),
    t ∈ findIter fuel cs →
    t.value.data ≠ [] ∧ t.value.data.all Char.isDigit = true := by
  intro fuel
  induction fuel with
  | zero =>
    intro cs t ht
    cases ht
  | succ n ih =>
    intro cs t ht
    cases cs with
    | nil => cases ht
    | cons c cs' =>
      rcases hm : matchTupleAt (c :: cs') with - | ⟨t', rest⟩
      · simp only [findIter, hm] at ht
        exact ih cs' t ht
      · simp only [findIter, hm] at ht
        rcases List.mem_cons.mp ht with rfl | htl
        · exact matchTupleAt_value hm
        · exact ih rest t htl

/-- The sentinel test threaded through the extraction loop, as
filter-then-map. -/
theorem extract_eq_filter_map (s : String) :
    extract_observed_tide s =
      ((observedMatches s).filter (fun t => t.value != "9999")).map obsRecord := by
  unfold extract_observed_tide
  induction observedMatches s with
  | nil => rfl
  | cons t ts ih =>
    rw [List.filterMap_cons, List.filter_cons]
    cases hv : (t.value != "9999") with
    | false => simpa [hv] using ih
    | true => simpa [hv] using ih

/-- The tide of every observed record is a cast natural number. -/
theorem obsRecord_tide_nonneg (t : ObsTuple) : 0 ≤ (obsRecord t).tide :=
  Int.natCast_nonneg _

/-! ## Decimal numerals -/

/-- A digit character has value at most nine. -/
theorem digitVal_le_nine {c : Char} (h : c.isDigit = true) : digitVal c ≤ 9 := by
  unfold Char.isDigit at h
  rw [Bool.and_eq_true, decide_eq_true_eq, decide_eq_true_eq] at h
  have h2 : c.toNat ≤ 57 := h.2
  unfold digitVal
  omega

/-- A nonzero digit character has value at least one. -/
theorem digitVal_ge_one {c : Char} (h : c.isDigit = true) (hz : c ≠ '0') :
    1 ≤ digitVal c := by
  unfold Char.isDigit at h
  rw [Bool.and_eq_true, decide_eq_true_eq, decide_eq_true_eq] at h
  have h1 : 48 ≤ c.toNat := h.1
  have hne : c.toNat ≠ 48 := by
    intro he
    exact hz (Char.ext (UInt32.ext he))
  unfold digitVal
  omega

/-- Folding the decimal accumulator over a list shifts the accumulator
past the whole list. -/
theorem foldl_digits (ds : List Char) : ∀ a : Nat,
    ds.foldl (fun a c => 10 * a + digitVal c) a
      = a * 10 ^ ds.length + natOfDigits ds := by
  induction ds with
  | nil =>
    intro a
    simp [natOfDigits]
  | cons c cs ih =>
    intro a
    rw [List.foldl_cons, ih (10 * a + digitVal c)]
    have h2 : natOfDigits (c :: cs) = digitVal c * 10 ^ cs.length + natOfDigits cs := by
      show cs.foldl (fun a c => 10 * a + digitVal c) (10 * 0 + digitVal c)
          = digitVal c * 10 ^ cs.length + natOfDigits cs
      rw [ih (10 * 0 + digitVal c)]
      ring
    rw [h2, List.length_cons, pow_succ]
    ring

/-- Peeling the leading digit off a decimal numeral. -/
theorem natOfDigits_cons (c : Char) (cs : List Char) :
    natOfDigits (c :: cs) = digitVal c * 10 ^ cs.length + natOfDigits cs := by
  show cs.foldl (fun a c => 10 * a + digitVal c) (10 * 0 + digitVal c)
      = digitVal c * 10 ^ cs.length + natOfDigits cs
  rw [foldl_digits cs (10 * 0 + digitVal c)]
  ring

/-- The value of an all-digit list is below ten to its length. -/
theorem natOfDigits_lt {ds : List Char} (h : ds.all Char.isDigit = true) :
    natOfDigits ds < 10 ^ ds.length := by
  induction ds with
  | nil =>
    unfold natOfDigits
    simp
  | cons c cs ih =>
    rw [List.all_cons, Bool.and_eq_true] at h
    have hc := digitVal_le_nine h.1
    have hcs := ih h.2
    rw [natOfDigits_cons, List.length_cons, pow_succ]
    have h9 : digitVal c * 10 ^ cs.length ≤ 9 * 10 ^ cs.length :=
      Nat.mul_le_mul_right _ hc
    omega

/-- The value of an all-digit list with nonzero head is at least ten to
the length of its tail. -/
theorem natOfDigits_ge {c : Char} {cs : List Char} (hd : c.isDigit = true)
    (hz : c ≠ '0') : 10 ^ cs.length ≤ natOfDigits (c :: cs) := by
  have h1 := digitVal_ge_one hd hz
  rw [natOfDigits_cons]
  have : 1 * 10 ^ cs.length ≤ digitVal c * 10 ^ cs.length :=
    Nat.mul_le_mul_right _ h1
  omega

/-- A canonical decimal numeral evaluating to 9999 is the string
`"9999"`. -/
theorem natOfDigits_eq_9999 {ds : List Char} (hd : ds.all Char.isDigit = true)
    (hne : ds ≠ []) (hcanon : ds.head? ≠ some '0' ∨ ds.length = 1)
    (hval : natOfDigits ds = 9999) : ds = ['9', '9', '9', '9'] := by
  obtain ⟨c, cs, rfl⟩ := List.exists_cons_of_ne_nil hne
  rcases hcanon with hc | h1
  · have hcz : c ≠ '0' := by
      intro he
      exact hc (by rw [he]; rfl)
    have hdc : c.isDigit = true ∧ cs.all Char.isDigit = true := by
      rw [List.all_cons, Bool.and_eq_true] at hd
      exact hd
    have hup : natOfDigits (c :: cs) < 10 ^ (c :: cs).length := natOfDigits_lt hd
    have hlo : 10 ^ cs.length ≤ natOfDigits (c :: cs) := natOfDigits_ge hdc.1 hcz
    rw [hval] at hup hlo
    have hlen : cs.length = 3 := by
      by_contra hlen3
      have e3 : (10 : Nat) ^ 3 = 1000 := by norm_num
      have e4 : (10 : Nat) ^ 4 = 10000 := by norm_num
      rcases Nat.lt_or_ge cs.length 3 with hsmall | hbig
      · have hle : (10 : Nat) ^ (c :: cs).length ≤ 10 ^ 3 :=
          Nat.pow_le_pow_right (by omega) (by rw [List.length_cons]; omega)
        omega
      · have h4 : 4 ≤ cs.length := by omega
        have hge : (10 : Nat) ^ 4 ≤ 10 ^ cs.length :=
          Nat.pow_le_pow_right (by omega) h4
        omega
    obtain ⟨a, b, d, rfl⟩ := List.length_eq_three.mp hlen
    have hexp : natOfDigits [c, a, b, d]
        = ((digitVal c * 10 + digitVal a) * 10 + digitVal b) * 10 + digitVal d := by
      unfold natOfDigits
      simp only [List.foldl_cons, List.foldl_nil]
      ring
    simp only [List.all_cons, List.all_nil, Bool.and_eq_true, and_true] at hd
    obtain ⟨hdA, hdB, hdC, hdD⟩ := hd
    have bc := digitVal_le_nine hdA
    have ba := digitVal_le_nine hdB
    have bb := digitVal_le_nine hdC
    have bd := digitVal_le_nine hdD
    rw [hexp] at hval
    have hc9 : digitVal c = 9 := by omega
    have ha9 : digitVal a = 9 := by omega
    have hb9 : digitVal b = 9 := by omega
    have hd9 : digitVal d = 9 := by omega
    have hnine : ∀ x : Char, x.isDigit = true → digitVal x = 9 → x = '9' := by
      intro x hx h9
      unfold Char.isDigit at hx
      rw [Bool.and_eq_true, decide_eq_true_eq, decide_eq_true_eq] at hx
      have hx1 : 48 ≤ x.toNat := hx.1
      unfold digitVal at h9
      have : x.toNat = 57 := by omega
      exact Char.ext (UInt32.ext this)
    rw [hnine c hdA hc9, hnine a hdB ha9, hnine b hdC hb9, hnine d hdD hd9]
  · rw [List.length_cons] at h1
    have : cs = [] := List.eq_nil_of_length_eq_zero (by omega)
    subst this
    rw [List.all_cons, Bool.and_eq_true] at hd
    have h9 := digitVal_le_nine hd.1
    have hv : natOfDigits [c] = digitVal c := by
      unfold natOfDigits
      simp [digitVal]
    rw [hv] at hval
    omega

/-! ## Claims about the observed extractor -/

/-- C1 counterexample: a data section whose single tuple carries the
sentinel **value** 9999 written with a leading zero (`09999`).  The
string filter `tide_cm != '9999'` misses it, so the extractor emits a
record whose tide is the sentinel 9999 — contradicting "none of which
has a tide value equal to 9999". -/
theorem observed_sentinel_value_leak :
    extract_observed_tide "2024 1 1 0 0 09999"
        = [⟨"2024-01-01T00:00:00", 9999, "observed"⟩] ∧
    ∃ r ∈ extract_observed_tide "2024 1 1 0 0 09999", r.tide = 9999 := by
  constructor
  · decide
  · exact ⟨⟨"2024-01-01T00:00:00", 9999, "observed"⟩, by decide, rfl⟩

/-- C1 amended: the extractor emits exactly one record per tuple whose
captured value **string** differs from `'9999'` (so exactly N records
for N such tuples), skipping the tuples captured as the exact string
`'9999'`; and provided every captured value is a canonical decimal
numeral (no leading zero), no emitted record has tide value 9999. -/
theorem observed_extract_amended (s : String) :
    extract_observed_tide s
        = ((observedMatches s).filter (fun t => t.value != "9999")).map obsRecord ∧
    (extract_observed_tide s).length
        = ((observedMatches s).filter (fun t => t.value != "9999")).length ∧
    ((∀ t ∈ observedMatches s, canonicalNumeral t.value) →
      ∀ r ∈ extract_observed_tide s, r.tide ≠ 9999) := by
  refine ⟨extract_eq_filter_map s, ?_, ?_⟩
  · rw [extract_eq_filter_map s, List.length_map]
  · intro hcanon r hr
    rw [extract_eq_filter_map s] at hr
    obtain ⟨t, ht, rfl⟩ := List.mem_map.mp hr
    have htm : t ∈ observedMatches s := List.mem_of_mem_filter ht
    have hneq : t.value ≠ "9999" := bne_iff_ne.mp (List.mem_filter.mp ht).2
    have hdig := findIter_value s.data.length s.data t htm
    intro h9999
    have hnat : natOfDigits t.value.data = 9999 := by
      have hcast : ((natOfDigits t.value.data : Int)) = (9999 : Int) := h9999
      exact_mod_cast hcast
    have hds := natOfDigits_eq_9999 hdig.2 hdig.1 (hcanon t htm) hnat
    exact hneq (string_eq_of_data_eq (by rw [hds]))

/-- Witness for C1 (amended): a section with one valid tuple and one
sentinel tuple, all captures canonical, yields one record and no tide
equal to 9999. -/
theorem observed_extract_amended_witness :
    (extract_observed_tide "2023 12 31 23 55 102 2024 1 1 0 0 9999").length = 1 ∧
    (extract_observed_tide "2023 12 31 23 55 102 2024 1 1 0 0 9999").all
        (fun r => r.tide != 9999) = true := by
  have h := observed_extract_amended "2023 12 31 23 55 102 2024 1 1 0 0 9999"
  constructor
  · rw [h.2.1]
    decide
  · have h3 := h.2.2 (by decide)
    rw [List.all_eq_true]
    intro r hr
    exact bne_iff_ne.mpr (h3 r hr)

/-- C9 counterexample (negation of the claim): no raw section text
whatsoever makes the observed extractor emit a record with negative
tide — the value group of the data pattern, `(\d+|9999)`, can only
capture unsigned digit runs, so a minus sign can never reach `int()`. -/
theorem observed_extract_never_negative :
    ¬ ∃ (s : String) (r : TideRecord), r ∈ extract_observed_tide s ∧ r.tide < 0 := by
  rintro ⟨s, r, hr, hneg⟩
  rw [extract_eq_filter_map] at hr
  obtain ⟨t, -, rfl⟩ := List.mem_map.mp hr
  exact absurd hneg (not_lt.mpr (obsRecord_tide_nonneg t))

/-- C9 amended: a `TideRecord` tide is an integer that may be negative,
but only the prediction extractor can produce a negative one (its level
cells go through sign-aware `int()`); every record the observed
extractor emits has nonnegative tide. -/
theorem tide_negative_only_in_predictions :
    (∀ (s : String), ∀ r ∈ extract_observed_tide s, 0 ≤ r.tide) ∧
    (∃ (d : String) (tbl : Option (List (List String))) (r : TideRecord),
      r ∈ (fetch_prediction_data d tbl).getD [] ∧ r.tide < 0) := by
  constructor
  · intro s r hr
    rw [extract_eq_filter_map] at hr
    obtain ⟨t, -, rfl⟩ := List.mem_map.mp hr
    exact obsRecord_tide_nonneg t
  · refine ⟨"2025-01-01",
      some [["h", "0", "1", "2", "3", "4", "5", "6", "7", "8", "9", "10", "11"],
        ["cm", "-15", "-15", "-15", "-15", "-15", "-15", "-15", "-15", "-15", "-15",
          "-15", "-15"],
        ["h", "12", "13", "14", "15", "16", "17", "18", "19", "20", "21", "22", "23"],
        ["cm", "-15", "-15", "-15", "-15", "-15", "-15", "-15", "-15", "-15", "-15",
          "-15", "-15"]],
      ⟨"2025-01-01T00:00:00", -15, "prediction"⟩, ?_, ?_⟩
    · decide
    · decide

/-- Witness for C9 (amended): the nonnegativity half applied to a
concrete section text. -/
theorem tide_negative_only_in_predictions_witness :
    0 ≤ (TideRecord.mk "2024-03-07T09:05:00" 153 "observed").tide :=
  tide_negative_only_in_predictions.1 "2024 3 7 9 5 153"
    ⟨"2024-03-07T09:05:00", 153, "observed"⟩ (by decide)

/-! ## Lemmas about the prediction extractor -/

/-- A `mapM` over `Option` whose body always succeeds is the `map` of
the successful values. -/
theorem mapM_eq_some_map {α β : Type} (f : α → Option β) (g : α → β) :
    ∀ l : List α, (∀ a ∈ l, f a = some (g a)) → l.mapM f = some (l.map g) := by
  intro l
  induction l with
  | nil =>
    intro _
    rfl
  | cons a as ih =>
    intro h
    rw [List.mapM_cons, h a (List.mem_cons_self a as),
      ih (fun b hb => h b (List.mem_cons_of_mem a hb)), List.map_cons]
    rfl

/-- A `mapM` over `Option` fails exactly when its body fails somewhere. -/
theorem mapM_eq_none_iff {α β : Type} (f : α → Option β) :
    ∀ l : List α, (l.mapM f = none ↔ ∃ a ∈ l, f a = none) := by
  intro l
  induction l with
  | nil =>
    rw [List.mapM_nil]
    simp
  | cons a as ih =>
    rw [List.mapM_cons]
    constructor
    · intro hnone
      cases hfa : f a with
      | none => exact ⟨a, List.mem_cons_self a as, hfa⟩
      | some b =>
        rw [hfa] at hnone
        cases hml : as.mapM f with
        | none =>
          obtain ⟨x, hx, hfx⟩ := ih.mp hml
          exact ⟨x, List.mem_cons_of_mem a hx, hfx⟩
        | some bs =>
          rw [hml] at hnone
          simp at hnone
    · rintro ⟨x, hx, hfx⟩
      rcases List.mem_cons.mp hx with rfl | hxs
      · rw [hfx]
        rfl
      · cases hfa : f a with
        | none => rfl
        | some b =>
          have hml : as.mapM f = none := ih.mpr ⟨x, hxs, hfx⟩
          rw [hml]
          rfl

/-- When at least four rows are present, `fetch_prediction_data` is the
24-iteration loop over the concatenated hour and level cells. -/
theorem fetch_prediction_data_rows (d : String) (r0 r1 r2 r3 : List String)
    (rest : List (List String)) :
    fetch_prediction_data d (some (r0 :: r1 :: r2 :: r3 :: rest)) =
      (List.range 24).mapM (predLoopBody d
        ((r0.drop 1).map pyStrip ++ (r2.drop 1).map pyStrip)
        ((r1.drop 1).map pyStrip ++ (r3.drop 1).map pyStrip)) := by
  unfold fetch_prediction_data
  simp

/-- Fewer than four rows always fail: indexing `rows[0]`–`rows[3]`
raises, the handler returns `None`. -/
theorem fetch_prediction_short_rows (d : String) (rows : List (List String))
    (h : rows.length < 4) : fetch_prediction_data d (some rows) = none := by
  rcases rows with - | ⟨a, - | ⟨b, - | ⟨c, - | ⟨e, rest⟩⟩⟩⟩
  · rfl
  · rfl
  · rfl
  · rfl
  · simp only [List.length_cons] at h
    omega

/-! ## Claims about the prediction extractor -/

/-- C10 counterexample: a present table containing rows with fewer than
13 cells for which extraction nevertheless succeeds — the over-long
rows 0 and 1 supply all 24 hour and level cells, so the short rows 2
and 3 are never reached by an index in range. -/
theorem prediction_malformed_counterexample :
    (∃ row ∈ ([List.replicate 25 "1", List.replicate 25 "2", ["x"], ["y"]] :
        List (List String)), row.length < 13) ∧
    fetch_prediction_data "2024-01-01"
        (some [List.replicate 25 "1", List.replicate 25 "2", ["x"], ["y"]]) ≠ none := by
  constructor
  · exact ⟨["x"], by decide, by decide⟩
  · decide

/-- C10 amended: with the table present, `fetch_prediction_data`
returns `None` when the table has fewer than four rows, and — with four
or more rows — exactly when one of the 24 loop iterations fails (an
hour or level index beyond the concatenated cells, or a level cell that
`int()` rejects after space removal); a row with fewer than 13 cells
does not by itself force `None` when other rows supply enough cells.
The absent table returns `None` as well, and every failure is a
returned `None`, never an escaping exception (the model is a total
function into `Option`). -/
theorem prediction_malformed_amended (dateStr : String) :
    fetch_prediction_data dateStr none = none ∧
    (∀ rows : List (List String), rows.length < 4 →
      fetch_prediction_data dateStr (some rows) = none) ∧
    (∀ r0 r1 r2 r3 : List String, ∀ rest : List (List String),
      (fetch_prediction_data dateStr (some (r0 :: r1 :: r2 :: r3 :: rest)) = none ↔
        ∃ j < 24, predLoopBody dateStr
          ((r0.drop 1).map pyStrip ++ (r2.drop 1).map pyStrip)
          ((r1.drop 1).map pyStrip ++ (r3.drop 1).map pyStrip) j = none)) := by
  refine ⟨rfl, fun rows h => fetch_prediction_short_rows dateStr rows h, ?_⟩
  intro r0 r1 r2 r3 rest
  rw [fetch_prediction_data_rows, mapM_eq_none_iff]
  constructor
  · rintro ⟨j, hj, hb⟩
    exact ⟨j, List.mem_range.mp hj, hb⟩
  · rintro ⟨j, hj, hb⟩
    exact ⟨j, List.mem_range.mpr hj, hb⟩

/-- Witness for C10 (amended): a two-row table fails, and a well-shaped
4×13 table with an unparseable level cell fails. -/
theorem prediction_malformed_amended_witness :
    fetch_prediction_data "2024-01-01" (some [["a"], ["b"]]) = none ∧
    fetch_prediction_data "2024-01-01"
        (some [["h", "0", "1", "2", "3", "4", "5", "6", "7", "8", "9", "10", "11"],
          ["cm", "abc", "2", "3", "4", "5", "6", "7", "8", "9", "10", "11", "12"],
          ["h", "12", "13", "14", "15", "16", "17", "18", "19", "20", "21", "22", "23"],
          ["cm", "1", "2", "3", "4", "5", "6", "7", "8", "9", "10", "11", "12"]])
      = none :=
  ⟨(prediction_malformed_amended "2024-01-01").2.1 [["a"], ["b"]] (by decide),
    ((prediction_malformed_amended "2024-01-01").2.2 _ _ _ _ _).mpr
      ⟨0, by omega, by decide⟩⟩

/-- C7: on a well-formed table — four rows of 13 cells, hour labels
`0`–`11` and `12`–`23` in rows 0 and 2, every level cell parseable
after space removal — extraction yields exactly the 24 records
`{datetime: date ++ "THH:00:00", tide: parsed level, type:
"prediction"}` with zero-padded hours `00` through `23`. -/
theorem prediction_wellformed (dateStr : String) (c0 c1 c2 c3 : String)
    (hs0 hs1 ls0 ls1 : List String) (vals0 vals1 : List Int)
    (hh0 : hs0.map pyStrip = (List.range 12).map (fun n => Nat.repr n))
    (hh1 : hs1.map pyStrip = (List.range 12).map (fun n => Nat.repr (12 + n)))
    (hv0 : ls0.map (fun c => pyInt (removeSpaces (pyStrip c))) = vals0.map some)
    (hv1 : ls1.map (fun c => pyInt (removeSpaces (pyStrip c))) = vals1.map some)
    (hL0 : vals0.length = 12) (hL1 : vals1.length = 12) :
    fetch_prediction_data dateStr (some [c0 :: hs0, c1 :: ls0, c2 :: hs1, c3 :: ls1])
      = some ((List.range 24).map (fun j =>
          ⟨dateStr ++ "T" ++ zfill 2 (Nat.repr j) ++ ":00:00",
            (vals0 ++ vals1).getD j 0, "prediction"⟩)) := by
  have hrows := fetch_prediction_data_rows dateStr (c0 :: hs0) (c1 :: ls0)
    (c2 :: hs1) (c3 :: ls1) []
  rw [hrows]
  simp only [List.drop_succ_cons, List.drop_zero]
  have hhours : hs0.map pyStrip ++ hs1.map pyStrip
      = (List.range 24).map (fun n => Nat.repr n) := by
    rw [hh0, hh1, show (24 : Nat) = 12 + 12 from rfl, List.range_add,
      List.map_append, List.map_map]
    rfl
  have hv0' : ls0.map ((fun l => pyInt (removeSpaces l)) ∘ pyStrip) = vals0.map some := hv0
  have hv1' : ls1.map ((fun l => pyInt (removeSpaces l)) ∘ pyStrip) = vals1.map some := hv1
  have hlv : (ls0.map pyStrip ++ ls1.map pyStrip).map (fun l => pyInt (removeSpaces l))
      = (vals0 ++ vals1).map some := by
    rw [List.map_append, List.map_map, List.map_map, hv0', hv1', List.map_append]
  have e0 : ls0.length = vals0.length := by
    have hlen := congrArg List.length hv0
    simpa using hlen
  have e1 : ls1.length = vals1.length := by
    have hlen := congrArg List.length hv1
    simpa using hlen
  have hlvlen : (ls0.map pyStrip ++ ls1.map pyStrip).length = 24 := by
    simp [List.length_append, List.length_map, e0, e1, hL0, hL1]
  apply mapM_eq_some_map
  intro j hj
  have hj24 : j < 24 := List.mem_range.mp hj
  have hhj : (hs0.map pyStrip ++ hs1.map pyStrip)[j]? = some (Nat.repr j) := by
    rw [hhours, List.getElem?_map, List.getElem?_range hj24]
    rfl
  have hjlen : j < (ls0.map pyStrip ++ ls1.map pyStrip).length := by
    rw [hlvlen]
    omega
  have hjv : j < (vals0 ++ vals1).length := by
    rw [List.length_append, hL0, hL1]
    omega
  have h1 := congrArg (fun l => l[j]?) hlv
  simp only [List.getElem?_map] at h1
  rw [List.getElem?_eq_getElem hjlen, List.getElem?_eq_getElem hjv] at h1
  simp only [Option.map_some', Option.some.injEq] at h1
  have hgd : (vals0 ++ vals1).getD j 0 = (vals0 ++ vals1)[j] := by
    rw [List.getD_eq_getElem?_getD, List.getElem?_eq_getElem hjv]
    rfl
  simp only [predLoopBody]
  rw [hhj, List.getElem?_eq_getElem hjlen, hgd]
  have h2 : pyInt (removeSpaces (ls0.map pyStrip ++ ls1.map pyStrip)[j]) >>=
      (fun v => some (⟨dateStr ++ "T" ++ zfill 2 (Nat.repr j) ++ ":00:00", v,
        "prediction"⟩ : TideRecord))
      = some ⟨dateStr ++ "T" ++ zfill 2 (Nat.repr j) ++ ":00:00", (vals0 ++ vals1)[j],
        "prediction"⟩ := by
    rw [h1]
    exact rfl
  exact h2

/-- Witness for C7: a concrete well-formed table (one level cell with
an internal space, one negative) yields the 24 expected records. -/
theorem prediction_wellformed_witness :
    fetch_prediction_data "2025-06-01"
        (some [["h", "0", "1", "2", "3", "4", "5", "6", "7", "8", "9", "10", "11"],
          ["cm", "166", "143", "118", "99", "91", "97", "115", "140", "1 6 4", "181",
            "187", "180"],
          ["h", "12", "13", "14", "15", "16", "17", "18", "19", "20", "21", "22", "23"],
          ["cm", "162", "138", "115", "99", "95", "-10", "124", "151", "178", "198",
            "207", "202"]])
      = some ((List.range 24).map (fun j =>
          ⟨"2025-06-01" ++ "T" ++ zfill 2 (Nat.repr j) ++ ":00:00",
            (([166, 143, 118, 99, 91, 97, 115, 140, 164, 181, 187, 180] : List Int)
              ++ [162, 138, 115, 99, 95, -10, 124, 151, 178, 198, 207, 202]).getD j 0,
            "prediction"⟩)) :=
  prediction_wellformed "2025-06-01" "h" "cm" "h" "cm"
    ["0", "1", "2", "3", "4", "5", "6", "7", "8", "9", "10", "11"]
    ["12", "13", "14", "15", "16", "17", "18", "19", "20", "21", "22", "23"]
    ["166", "143", "118", "99", "91", "97", "115", "140", "1 6 4", "181", "187", "180"]
    ["162", "138", "115", "99", "95", "-10", "124", "151", "178", "198", "207", "202"]
    [166, 143, 118, 99, 91, 97, 115, 140, 164, 181, 187, 180]
    [162, 138, 115, 99, 95, -10, 124, 151, 178, 198, 207, 202]
    (by decide) (by decide) (by decide) (by decide) (by decide) (by decide)

/-! ## Claims about the prediction driver -/

/-- The driver's accumulation loop flattens the successful results in
order; a `None` or empty result contributes nothing. -/
theorem runPredictionDriver_foldl (results : List (Option (List TideRecord))) :
    ∀ acc : List TideRecord,
      results.foldl
        (fun acc r =>
          match r with
          | some d => if d.isEmpty then acc else acc ++ d
          | none => acc) acc
      = acc ++ (results.filterMap id).flatten := by
  induction results with
  | nil =>
    intro acc
    simp
  | cons r rs ih =>
    intro acc
    rw [List.foldl_cons]
    cases r with
    | none =>
      rw [ih]
      simp [List.filterMap_cons]
    | some d =>
      cases hd : d.isEmpty with
      | true =>
        have hd' : d = [] := List.isEmpty_iff.mp hd
        rw [ih]
        simp [List.filterMap_cons, hd', hd]
      | false =>
        rw [ih]
        simp [List.filterMap_cons, hd, List.append_assoc]

/-- Concatenating complete 24-record days multiplies the count. -/
theorem flatten_length_24 : ∀ L : List (List TideRecord),
    (∀ x ∈ L, x.length = 24) → L.flatten.length = 24 * L.length := by
  intro L
  induction L with
  | nil =>
    intro _
    simp
  | cons x xs ih =>
    intro h
    rw [List.flatten_cons, List.length_append, ih (fun y hy => h y (List.mem_cons_of_mem x hy)),
      h x (List.mem_cons_self x xs), List.length_cons]
    ring

/-- C8: over a 7-date run where every successful date contributes a
complete 24-record day, the driver persists nothing exactly when no
date succeeded, and otherwise persists — in one shot — the
concatenation of the successful dates' records in date order, with
24 × (number of successful dates) records (5 successes give 120). -/
theorem prediction_driver_partial (results : List (Option (List TideRecord)))
    (_hdays : results.length = 7)
    (hcomplete : ∀ l : List TideRecord, some l ∈ results → l.length = 24) :
    (runPredictionDriver results = none ↔ results.filterMap id = []) ∧
    (results.filterMap id ≠ [] →
      runPredictionDriver results = some ((results.filterMap id).flatten) ∧
      ((results.filterMap id).flatten).length = 24 * (results.filterMap id).length) := by
  have hmem24 : ∀ x ∈ results.filterMap id, x.length = 24 := by
    intro x hx
    obtain ⟨a, ha, hax⟩ := List.mem_filterMap.mp hx
    cases a with
    | none => exact absurd hax (by simp)
    | some l =>
      have hlx : l = x := by simpa using hax
      rw [← hlx]
      exact hcomplete l ha
  have hdr : runPredictionDriver results
      = if ((results.filterMap id).flatten).isEmpty then none
        else some ((results.filterMap id).flatten) := by
    unfold runPredictionDriver
    simp only [runPredictionDriver_foldl results [], List.nil_append]
  have hflat_iff : ((results.filterMap id).flatten = []) ↔ results.filterMap id = [] := by
    constructor
    · intro h0
      cases hq : results.filterMap id with
      | nil => rfl
      | cons y ys =>
        have hy24 := hmem24 y (by rw [hq]; exact List.mem_cons_self _ _)
        have hynil : y = [] := List.flatten_eq_nil_iff.mp h0 y
          (by rw [hq]; exact List.mem_cons_self _ _)
        rw [hynil] at hy24
        simp at hy24
    · intro h0
      rw [h0]
      rfl
  constructor
  · rw [hdr]
    cases hfl : ((results.filterMap id).flatten).isEmpty with
    | true =>
      rw [if_pos rfl]
      constructor
      · intro _
        exact hflat_iff.mp (List.isEmpty_iff.mp hfl)
      · intro _
        rfl
    | false =>
      rw [if_neg (by simp)]
      constructor
      · intro hcontra
        exact absurd hcontra (by simp)
      · intro hq
        have hx : ((results.filterMap id).flatten) = [] := hflat_iff.mpr hq
        rw [hx] at hfl
        simp at hfl
  · intro hne
    have hflne : ((results.filterMap id).flatten).isEmpty = false := by
      cases hfl : ((results.filterMap id).flatten).isEmpty with
      | true => exact absurd (hflat_iff.mp (List.isEmpty_iff.mp hfl)) hne
      | false => rfl
    constructor
    · rw [hdr, hflne]
      rfl
    · exact flatten_length_24 _ hmem24

/-- Witness for C8: five successes out of seven dates give exactly 120
persisted records, in one persister invocation. -/
theorem prediction_driver_partial_witness :
    runPredictionDriver sampleDriverResults
      = some ((sampleDriverResults.filterMap id).flatten) ∧
    ((sampleDriverResults.filterMap id).flatten).length = 120 := by
  have h := prediction_driver_partial sampleDriverResults (by decide)
    (by
      intro l hl
      simp [sampleDriverResults] at hl
      rcases hl with h1 | h1 | h1 | h1 | h1 <;> rw [h1] <;> simp)
  have hne : sampleDriverResults.filterMap id ≠ [] := by decide
  refine ⟨(h.2 hne).1, ?_⟩
  rw [(h.2 hne).2]
  decide

end NayaTidal
